import Mathlib

/-!
Verification of the segmented Sieve of Eratosthenes from
`src/sieve/sieve_ccotter_fun.cpp` (`sieve_unifex_block`).

The orchestration (`sieve_unifex_block`, `main`) is embedded from the source
file.  The per-stage helpers (`sieve_seq`, `sieve_to_primes`, `input_body`,
`gen_range`, `range_sieve`, `sieve_to_primes_part`, `output_body`) live in
headers `sieve.hpp` / `sieve_fun.hpp` that are not part of the sources here,
so they are modelled from the specification text, as marked on each
definition.  Concurrency is modelled by deterministic sequential execution of
the spawned pipelines: the atomic block counter delivers 0,1,2,… and every
pipeline's deposit is performed before the result table is returned, which is
the sequential shadow of the join barrier.
-/

namespace SieveExec

/-- Integer ceiling of the real square root, `⌈√n⌉`. Models
`static_cast<size_t>(std::ceil(std::sqrt(n)))` at line 62 of
`sieve_ccotter_fun.cpp` (exact for the mathematical square root). -/
def csqrt (n : Nat) : Nat :=
  if n = 0 then 0 else Nat.sqrt (n - 1) + 1

/-- Executable primality test used to state the canonical prime list. -/
def isPrimeB (x : Nat) : Bool :=
  decide (2 ≤ x) && (List.range x).all (fun d => decide (d < 2) || decide (¬ d ∣ x))

/-- The canonical, ascending, duplicate-free list of all primes `≤ n`. -/
def primesUpTo (n : Nat) : List Nat :=
  (List.range (n + 1)).filter isPrimeB

/-- A boolean-like bitmap element type: models the template parameter
`bool_t` of `sieve_unifex_block` (instantiated at `bool` and `char` by
`main`, lines 133-134). `tt`/`ff` are the stored mark values and `toBool`
is how a stored value is read back as a truth value. -/
structure BoolRep (B : Type) where
  tt : B
  ff : B
  toBool : B → Bool
  toBool_tt : toBool tt = true
  toBool_ff : toBool ff = false

/-- The `bool` instantiation of the bitmap element type. -/
def boolRep : BoolRep Bool :=
  ⟨true, false, id, rfl, rfl⟩

/-- The `char` instantiation of the bitmap element type (a `char` holds the
numeric values 1 and 0). -/
def charRep : BoolRep Nat :=
  ⟨1, 0, fun c => decide (c ≠ 0), rfl, rfl⟩

/-- Write `ff` at every buffer position satisfying `cond`, leaving other
positions unchanged (a functional rendering of an in-place marking loop). -/
def markWith {B : Type} (R : BoolRep B) (cond : Nat → Bool) (buf : List B) : List B :=
  (List.range buf.length).map (fun i => if cond i then R.ff else buf.getD i R.ff)

/-- Modelled from the spec: one step of the base sieve of `sieve_seq`
(`sieve.hpp`, missing from src): for the current `k`, if position `k` is
still unmarked, mark every multiple of `k` starting at `k*k`. -/
def sieveStep {B : Type} (R : BoolRep B) (buf : List B) (k : Nat) : List B :=
  if R.toBool (buf.getD k R.ff) then
    markWith R (fun i => decide (k * k ≤ i) && decide (k ∣ i)) buf
  else buf

/-- Modelled from the spec: `sieve_seq` (`sieve.hpp`, missing from src) —
the plain Sieve of Eratosthenes on a buffer of size `m + 1`, all positions
initially unmarked, striking multiples of each `k` from 2 to `⌊√m⌋` that is
still unmarked when its turn comes. -/
def sieve_seq {B : Type} (R : BoolRep B) (m : Nat) : List B :=
  ((List.range (Nat.sqrt m - 1)).map (· + 2)).foldl (sieveStep R) (List.replicate (m + 1) R.tt)

/-- The base-sieve fold after processing candidates `2, 3, …, j + 1`
(so `sieve_seq R m = baseFold R m (Nat.sqrt m - 1)`). -/
def baseFold {B : Type} (R : BoolRep B) (m j : Nat) : List B :=
  ((List.range j).map (· + 2)).foldl (sieveStep R) (List.replicate (m + 1) R.tt)

/-- Modelled from the spec: `sieve_to_primes` (`sieve.hpp`, missing from
src) — collect the indices still marked prime, skipping 0 and 1. -/
def sieve_to_primes {B : Type} (R : BoolRep B) (buf : List B) : List Nat :=
  (List.range buf.length).filter (fun i => decide (2 ≤ i) && R.toBool (buf.getD i R.ff))

/-- The base prime list computed at lines 65-66 of the source:
`sieve_to_primes(sieve_seq(sqrt_n))` with `sqrt_n = ⌈√n⌉`. -/
def base_primes {B : Type} (R : BoolRep B) (n : Nat) : List Nat :=
  sieve_to_primes R (sieve_seq R (csqrt n))

/-- A block pipeline's working state: the half-open range `[lo, hi)` and the
candidate buffer, position `i` representing integer `lo + i`. -/
structure Block (B : Type) where
  lo : Nat
  hi : Nat
  buf : List B

/-- Modelled from the spec: `gen_range` (`sieve_fun.hpp`, missing from src)
— derive block `i`'s half-open range: `lo = blockIndex * blockSize` adjusted
past the reserved base range `[0, sqrtN]`, `hi = min (lo + blockSize) (n+1)`,
and a fresh buffer of size `hi - lo`, all positions unmarked. -/
def gen_range {B : Type} (R : BoolRep B) (i block_size sqrt_n n : Nat) : Block B :=
  let lo := sqrt_n + 1 + i * block_size
  let hi := min (lo + block_size) (n + 1)
  ⟨lo, hi, List.replicate (hi - lo) R.tt⟩

/-- The first multiple of `p` that is `≥ lo` and `≥ p*p`: the starting point
of `p`'s marking loop inside a block. -/
def startMult (p lo : Nat) : Nat :=
  max (p * p) ((lo + p - 1) / p * p)

/-- Mark the multiples of the base prime `p` inside the block: every position
`i` whose integer `lo + i` is a multiple of `p` at or beyond `startMult p lo`. -/
def markPrime {B : Type} (R : BoolRep B) (lo p : Nat) (buf : List B) : List B :=
  markWith R (fun i => decide (startMult p lo ≤ lo + i) && decide (p ∣ (lo + i))) buf

/-- Modelled from the spec: `range_sieve` (`sieve_fun.hpp`, missing from
src) — for every base prime `p` with `p ≤ √hi` (as integers, `p*p ≤ hi`),
mark its multiples in `[lo, hi)` starting at `startMult p lo`. -/
def range_sieve {B : Type} (R : BoolRep B) (blk : Block B) (base : List Nat) : Block B :=
  { blk with
    buf := (base.filter (fun p => decide (p * p ≤ blk.hi))).foldl
      (fun b p => markPrime R blk.lo p b) blk.buf }

/-- Modelled from the spec: `sieve_to_primes_part` (`sieve_fun.hpp`, missing
from src) — extract the positions still unmarked, in ascending order,
translated back to global integers `lo + i`. -/
def sieve_to_primes_part {B : Type} (R : BoolRep B) (blk : Block B) : List Nat :=
  ((List.range blk.buf.length).filter (fun i => R.toBool (blk.buf.getD i R.ff))).map
    (fun i => blk.lo + i)

/-- One full block pipeline (the sender built at lines 85-91 of the source,
minus the deposit): range derivation, sieve pass, extraction. -/
def pipeline {B : Type} (R : BoolRep B) (base : List Nat) (block_size sqrt_n n i : Nat) :
    List Nat :=
  sieve_to_primes_part R (range_sieve R (gen_range R i block_size sqrt_n n) base)

/-- Modelled from the spec: `input_body` (`sieve_fun.hpp`, missing from src)
— the block allocator's atomic counter: return the current value and
increment. -/
def alloc_next (c : Nat) : Nat × Nat :=
  (c, c + 1)

/-- The indices delivered by `k` successive calls of the allocator starting
from counter value `c`. -/
def allocDelivered : Nat → Nat → List Nat
  | 0, _ => []
  | k + 1, c =>
    let r := alloc_next c
    r.1 :: allocDelivered k r.2

/-- The result table paired with the log of slots written so far. -/
abbrev SieveState := List (Option (List Nat)) × List Nat

/-- Modelled from the spec: `output_body` (`sieve_fun.hpp`, missing from
src) — deposit a block's prime list into its slot of the result table. -/
def output_body (res : List Nat) (slot : Nat) (st : SieveState) : SieveState :=
  (st.1.set slot (some res), st.2 ++ [slot])

/-- Run the `T` spawned block pipelines (lines 108-114 of the source),
sequentially in allocator order: the pipeline receiving block index `i`
deposits its output at slot `i + 1` (slot 0 is reserved for the base
primes). -/
def runPipelines {B : Type} (R : BoolRep B) (base : List Nat)
    (block_size sqrt_n n T : Nat) (st : SieveState) : SieveState :=
  (allocDelivered T 0).foldl
    (fun st i => output_body (pipeline R base block_size sqrt_n n i) (i + 1) st) st

/-- Depositing the outputs `f 0, …, f (T-1)` at slots `1, …, T`: the shape of
`runPipelines` for an arbitrary per-block output function. -/
def depositAll (f : Nat → List Nat) (T : Nat) (st : SieveState) : SieveState :=
  (List.range T).foldl (fun st i => output_body (f i) (i + 1) st) st

/-- The result table as first allocated (line 69 of the source,
`n / block_size + 2` empty slots) with slot 0 set to the base prime list
(line 70), before any pipeline is launched. -/
def initTable {B : Type} (R : BoolRep B) (n block_size : Nat) : List (Option (List Nat)) :=
  (List.replicate (n / block_size + 2) (none : Option (List Nat))).set 0
    (some (base_primes R n))

/-- The state after spawning and joining the `n / block_size + 1` block
pipelines (lines 108-114 of the source): final result table and write log. -/
def sieveRun {B : Type} (R : BoolRep B) (n block_size : Nat) : SieveState :=
  runPipelines R (base_primes R n) block_size (csqrt n) n (n / block_size + 1)
    (initTable R n block_size, [])

/-- Failure modes of the embedded computation. `divisionByZero` models the
C++ undefined behaviour of `n / block_size` when `block_size == 0`;
`invalidConfiguration` is the rejection the specification asks for (the
source never produces it). -/
inductive SieveError : Type
  | divisionByZero : SieveError
  | invalidConfiguration : SieveError
deriving DecidableEq, Repr, BEq

/-- The embedding of `sieve_unifex_block` (lines 61-119 of the source):
base sieve, result-table allocation of `n / block_size + 2` slots with slot 0
holding the base primes, then `n / block_size + 1` block pipelines. The
divisions `n / block_size` at lines 69 and 109 execute with no prior check of
`block_size`, so `block_size = 0` is a division by zero, modelled as the
`divisionByZero` error. -/
def sieve_unifex_block {B : Type} (R : BoolRep B) (n block_size : Nat) :
    Except SieveError (List (Option (List Nat))) :=
  if block_size = 0 then Except.error SieveError.divisionByZero
  else Except.ok (sieveRun R n block_size).1

/-- Concatenate the result table's slots in ascending slot order. -/
def tableConcat (tbl : List (Option (List Nat))) : List Nat :=
  (tbl.map (fun o => o.getD [])).flatten

/-- The observable result of one sieve run with the `bool` bitmap: the
concatenation of slot 0 (base primes) with the per-block results in
ascending slot order. -/
def run_sieve (n block_size : Nat) : Except SieveError (List Nat) :=
  (sieve_unifex_block boolRep n block_size).map tableConcat

/-! ### Basic list-access helpers -/

theorem getD_replicate {α : Type} (a b : α) {k i : Nat} (h : i < k) :
    (List.replicate k a).getD i b = a := by
  have h' : i < (List.replicate k a).length := by rw [List.length_replicate]; exact h
  rw [List.getD_eq_getElem _ _ h']
  exact List.getElem_replicate a h'

theorem length_markWith {B : Type} (R : BoolRep B) (cond : Nat → Bool) (buf : List B) :
    (markWith R cond buf).length = buf.length := by
  simp [markWith]

theorem getD_markWith {B : Type} (R : BoolRep B) (cond : Nat → Bool) (buf : List B)
    {i : Nat} (h : i < buf.length) :
    (markWith R cond buf).getD i R.ff = if cond i then R.ff else buf.getD i R.ff := by
  have h' : i < (markWith R cond buf).length := by rw [length_markWith]; exact h
  rw [List.getD_eq_getElem _ _ h']
  unfold markWith
  simp only [List.getElem_map, List.getElem_range]

theorem range'_glue (a b c : Nat) :
    List.range' a b ++ List.range' (a + b) c = List.range' a (b + c) := by
  have h := List.range'_append a b c 1
  rw [Nat.one_mul] at h
  rw [h, Nat.add_comm c b]

/-! ### The ceiling square root -/

theorem le_csqrt_sq (n : Nat) : n ≤ csqrt n * csqrt n := by
  unfold csqrt
  by_cases h : n = 0
  · simp [h]
  · simp only [h, if_false]
    have h1 := Nat.lt_succ_sqrt (n - 1)
    rw [Nat.succ_eq_add_one] at h1
    omega

theorem csqrt_le_of_le_sq {n k : Nat} (h : n ≤ k * k) : csqrt n ≤ k := by
  unfold csqrt
  by_cases h0 : n = 0
  · simp [h0]
  · simp only [h0, if_false]
    have h1 : n - 1 < k * k := by omega
    have h2 : Nat.sqrt (n - 1) < k := Nat.sqrt_lt.mpr h1
    omega

theorem csqrt_le_self (n : Nat) : csqrt n ≤ n := by
  unfold csqrt
  by_cases h0 : n = 0
  · simp [h0]
  · simp only [h0, if_false]
    have := Nat.sqrt_le_self (n - 1)
    omega

theorem csqrt_pos {n : Nat} (h : 1 ≤ n) : 1 ≤ csqrt n := by
  unfold csqrt
  have : n ≠ 0 := by omega
  simp [this]

theorem le_csqrt_of_sq_le {p n : Nat} (h : p * p ≤ n) : p ≤ csqrt n := by
  have h1 : p ≤ Nat.sqrt n := Nat.le_sqrt.mpr h
  have h2 : Nat.sqrt n ≤ csqrt n := by
    unfold csqrt
    by_cases h0 : n = 0
    · simp [h0]
    · simp only [h0, if_false]
      have h3 : n ≤ (Nat.sqrt (n - 1) + 1) * (Nat.sqrt (n - 1) + 1) := by
        have h5 := Nat.lt_succ_sqrt (n - 1)
        rw [Nat.succ_eq_add_one] at h5
        omega
      have h4 := Nat.sqrt_le_sqrt h3
      calc Nat.sqrt n ≤ Nat.sqrt ((Nat.sqrt (n - 1) + 1) * (Nat.sqrt (n - 1) + 1)) := h4
        _ = Nat.sqrt (n - 1) + 1 := Nat.sqrt_eq (Nat.sqrt (n - 1) + 1)
  omega

/-! ### Primality facts -/

theorem isPrimeB_iff (x : Nat) : isPrimeB x = true ↔ Nat.Prime x := by
  rw [Nat.prime_def_lt, isPrimeB]
  simp only [Bool.and_eq_true, decide_eq_true_eq, List.all_eq_true, List.mem_range,
    Bool.or_eq_true]
  constructor
  · rintro ⟨h2, hall⟩
    refine ⟨h2, fun m hm hdvd => ?_⟩
    rcases hall m hm with hlt | hnd
    · interval_cases m
      · exact absurd (Nat.eq_zero_of_zero_dvd hdvd) (by omega)
      · rfl
    · exact absurd hdvd hnd
  · rintro ⟨h2, hmin⟩
    refine ⟨h2, fun d hd => ?_⟩
    by_cases hdvd : d ∣ x
    · left
      have := hmin d hd hdvd
      omega
    · right; exact hdvd

theorem exists_prime_sq_factor {x : Nat} (h2 : 2 ≤ x) (hnp : ¬ Nat.Prime x) :
    ∃ p, Nat.Prime p ∧ p * p ≤ x ∧ p ∣ x := by
  have hne1 : x ≠ 1 := by omega
  refine ⟨x.minFac, Nat.minFac_prime hne1, ?_, Nat.minFac_dvd x⟩
  obtain ⟨q, hq⟩ := Nat.minFac_dvd x
  have hq2 : 2 ≤ q := by
    rcases Nat.lt_or_ge q 2 with hlt | hge
    · interval_cases q
      · omega
      · exfalso
        rw [Nat.mul_one] at hq
        exact hnp (hq ▸ Nat.minFac_prime hne1)
    · exact hge
  have hqdvd : q ∣ x := ⟨x.minFac, hq.trans (Nat.mul_comm _ _)⟩
  have hle : x.minFac ≤ q := Nat.minFac_le_of_dvd hq2 hqdvd
  calc x.minFac * x.minFac ≤ x.minFac * q := Nat.mul_le_mul_left _ hle
    _ = x := hq.symm

theorem prime_iff_no_small_factor {x : Nat} (h2 : 2 ≤ x) :
    Nat.Prime x ↔ ¬ ∃ p, Nat.Prime p ∧ p * p ≤ x ∧ p ∣ x := by
  constructor
  · rintro hp ⟨p, hpp, hsq, hdvd⟩
    rcases hp.eq_one_or_self_of_dvd p hdvd with h1 | hx
    · exact absurd h1 (Nat.Prime.one_lt hpp).ne'
    · subst hx
      nlinarith [hp.two_le]
  · intro hno
    by_contra hnp
    exact hno (exists_prime_sq_factor h2 hnp)

theorem primesUpTo_sorted (n : Nat) : List.Sorted (· < ·) (primesUpTo n) :=
  (List.pairwise_lt_range (n + 1)).filter _

theorem mem_primesUpTo {n x : Nat} : x ∈ primesUpTo n ↔ Nat.Prime x ∧ x ≤ n := by
  rw [primesUpTo, List.mem_filter, List.mem_range, isPrimeB_iff]
  constructor
  · rintro ⟨h1, h2⟩; exact ⟨h2, by omega⟩
  · rintro ⟨h1, h2⟩; exact ⟨by omega, h1⟩

/-! ### Base sieve correctness -/

theorem length_sieveStep {B : Type} (R : BoolRep B) (buf : List B) (k : Nat) :
    (sieveStep R buf k).length = buf.length := by
  unfold sieveStep
  split
  · exact length_markWith R _ buf
  · rfl

theorem length_foldl_sieveStep {B : Type} (R : BoolRep B) (ks : List Nat) (buf : List B) :
    (ks.foldl (sieveStep R) buf).length = buf.length := by
  induction ks generalizing buf with
  | nil => rfl
  | cons k ks ih => rw [List.foldl_cons, ih, length_sieveStep]

theorem length_baseFold {B : Type} (R : BoolRep B) (m j : Nat) :
    (baseFold R m j).length = m + 1 := by
  unfold baseFold
  rw [length_foldl_sieveStep, List.length_replicate]

theorem length_sieve_seq {B : Type} (R : BoolRep B) (m : Nat) :
    (sieve_seq R m).length = m + 1 :=
  length_baseFold R m (Nat.sqrt m - 1)

theorem baseFold_succ {B : Type} (R : BoolRep B) (m j : Nat) :
    baseFold R m (j + 1) = sieveStep R (baseFold R m j) (j + 2) := by
  unfold baseFold
  rw [List.range_succ, List.map_append, List.foldl_append]
  rfl

theorem baseFold_toBool {B : Type} (R : BoolRep B) (m : Nat) :
    ∀ j, ∀ i ≤ m, (R.toBool ((baseFold R m j).getD i R.ff) = true ↔
      ¬ ∃ p, Nat.Prime p ∧ p ≤ j + 1 ∧ p * p ≤ i ∧ p ∣ i) := by
  intro j
  induction j with
  | zero =>
    intro i hi
    unfold baseFold
    simp only [List.range_zero, List.map_nil, List.foldl_nil]
    rw [getD_replicate _ _ (by omega), R.toBool_tt]
    simp only [true_iff]
    rintro ⟨p, hp, hp1, -, -⟩
    exact absurd hp.two_le (by omega)
  | succ j ih =>
    intro i hi
    rw [baseFold_succ]
    unfold sieveStep
    by_cases htb : R.toBool ((baseFold R m j).getD (j + 2) R.ff) = true
    · rw [if_pos htb]
      -- position j + 2 was still unmarked, so j + 2 must be prime
      have hk_le : j + 2 ≤ m := by
        by_contra hgt
        rw [List.getD_eq_default _ _ (by rw [length_baseFold]; omega), R.toBool_ff] at htb
        exact Bool.false_ne_true htb
      have hk_prime : Nat.Prime (j + 2) := by
        by_contra hnp
        obtain ⟨p, hpp, hpsq, hpdvd⟩ := exists_prime_sq_factor (by omega) hnp
        have hplt : p < j + 2 := by
          rcases Nat.lt_or_ge p (j + 2) with h | h
          · exact h
          · exfalso
            have := Nat.le_of_dvd (by omega) hpdvd
            have hpe : p = j + 2 := by omega
            exact hnp (hpe ▸ hpp)
        rw [ih (j + 2) hk_le] at htb
        exact htb ⟨p, hpp, by omega, hpsq, hpdvd⟩
      rw [getD_markWith R _ _ (by rw [length_baseFold]; omega)]
      by_cases hc : (decide ((j + 2) * (j + 2) ≤ i) && decide ((j + 2) ∣ i)) = true
      · rw [if_pos hc, R.toBool_ff]
        simp only [Bool.and_eq_true, decide_eq_true_eq] at hc
        simp only [Bool.false_eq_true, false_iff, not_not]
        exact ⟨j + 2, hk_prime, by omega, hc.1, hc.2⟩
      · rw [if_neg hc, ih i hi]
        simp only [Bool.and_eq_true, decide_eq_true_eq, not_and] at hc
        constructor
        · rintro hno ⟨p, hpp, hple, hpsq, hpdvd⟩
          rcases Nat.lt_or_ge p (j + 2) with hlt | hge
          · exact hno ⟨p, hpp, by omega, hpsq, hpdvd⟩
          · have hpe : p = j + 2 := by omega
            subst hpe
            exact absurd hpdvd (hc hpsq)
        · rintro hno ⟨p, hpp, hple, hpsq, hpdvd⟩
          exact hno ⟨p, hpp, by omega, hpsq, hpdvd⟩
    · rw [if_neg htb, ih i hi]
      -- position j + 2 was already marked: j + 2 is composite (or out of range)
      constructor
      · rintro hno ⟨p, hpp, hple, hpsq, hpdvd⟩
        rcases Nat.lt_or_ge p (j + 2) with hlt | hge
        · exact hno ⟨p, hpp, by omega, hpsq, hpdvd⟩
        · have hpe : p = j + 2 := by omega
          subst hpe
          rcases Nat.lt_or_ge m (j + 2) with hm | hm
          · -- out of range: (j+2)*(j+2) ≤ i ≤ m < j+2 is impossible
            have hsq : j + 2 ≤ (j + 2) * (j + 2) := Nat.le_mul_of_pos_left _ (by omega)
            omega
          · -- in range yet already marked: j + 2 has a smaller prime factor,
            -- so it is not prime and this extra candidate changes nothing
            rw [ih (j + 2) hm] at htb
            simp only [not_not] at htb
            obtain ⟨q, hqp, hqle, hqsq, hqdvd⟩ := htb
            rcases hpp.eq_one_or_self_of_dvd q hqdvd with h1 | hq
            · exact absurd h1 hqp.one_lt.ne'
            · omega
      · rintro hno ⟨p, hpp, hple, hpsq, hpdvd⟩
        exact hno ⟨p, hpp, by omega, hpsq, hpdvd⟩

theorem sieve_seq_toBool {B : Type} (R : BoolRep B) {m i : Nat} (hi : i ≤ m) :
    R.toBool ((sieve_seq R m).getD i R.ff) = true ↔
      ¬ ∃ p, Nat.Prime p ∧ p * p ≤ i ∧ p ∣ i := by
  have hfold : sieve_seq R m = baseFold R m (Nat.sqrt m - 1) := rfl
  rw [hfold, baseFold_toBool R m (Nat.sqrt m - 1) i hi]
  constructor
  · rintro h ⟨p, hp, hsq, hdvd⟩
    have h1 : p ≤ Nat.sqrt m := Nat.le_sqrt.mpr (le_trans hsq hi)
    have h2 := hp.two_le
    exact h ⟨p, hp, by omega, hsq, hdvd⟩
  · rintro h ⟨p, hp, -, hsq, hdvd⟩
    exact h ⟨p, hp, hsq, hdvd⟩

theorem sieve_to_primes_sieve_seq {B : Type} (R : BoolRep B) (m : Nat) :
    sieve_to_primes R (sieve_seq R m) = primesUpTo m := by
  unfold sieve_to_primes primesUpTo
  rw [length_sieve_seq]
  apply List.filter_congr
  intro i hmem
  rw [List.mem_range] at hmem
  by_cases h2 : 2 ≤ i
  · have hc := sieve_seq_toBool R (m := m) (i := i) (by omega)
    have hpc : Nat.Prime i ↔ ¬ ∃ p, Nat.Prime p ∧ p * p ≤ i ∧ p ∣ i :=
      prime_iff_no_small_factor h2
    have hL : (decide (2 ≤ i) && R.toBool ((sieve_seq R m).getD i R.ff)) = true ↔
        isPrimeB i = true := by
      rw [Bool.and_eq_true, isPrimeB_iff, hpc, decide_eq_true_eq, hc]
      constructor
      · rintro ⟨-, h⟩; exact h
      · intro h; exact ⟨h2, h⟩
    exact Bool.coe_iff_coe.mp hL
  · have hL : (decide (2 ≤ i) && R.toBool ((sieve_seq R m).getD i R.ff)) = false := by
      simp [decide_eq_false h2]
    have hR : isPrimeB i = false := by
      unfold isPrimeB
      simp [decide_eq_false h2]
    rw [hL, hR]

theorem base_primes_eq {B : Type} (R : BoolRep B) (n : Nat) :
    base_primes R n = primesUpTo (csqrt n) :=
  sieve_to_primes_sieve_seq R (csqrt n)

/-! ### The per-prime starting multiple inside a block -/

theorem dvd_startMult (p lo : Nat) : p ∣ startMult p lo := by
  unfold startMult
  rcases Nat.le_total (p * p) ((lo + p - 1) / p * p) with h | h
  · rw [Nat.max_eq_right h]
    exact Nat.dvd_mul_left p _
  · rw [Nat.max_eq_left h]
    exact Nat.dvd_mul_right p p

theorem sq_le_startMult (p lo : Nat) : p * p ≤ startMult p lo :=
  Nat.le_max_left _ _

theorem le_startMult {p : Nat} (hp : 1 ≤ p) (lo : Nat) : lo ≤ startMult p lo := by
  have h1 : p * ((lo + p - 1) / p) + (lo + p - 1) % p = lo + p - 1 := Nat.div_add_mod _ _
  have h2 : (lo + p - 1) % p < p := Nat.mod_lt _ (by omega)
  have h3 : lo ≤ p * ((lo + p - 1) / p) := by omega
  calc lo ≤ p * ((lo + p - 1) / p) := h3
    _ = (lo + p - 1) / p * p := Nat.mul_comm _ _
    _ ≤ startMult p lo := Nat.le_max_right _ _

theorem startMult_le {p lo x : Nat} (hp : 1 ≤ p) (hdvd : p ∣ x) (hlo : lo ≤ x)
    (hsq : p * p ≤ x) : startMult p lo ≤ x := by
  obtain ⟨q, hq⟩ := hdvd
  have h3 : (lo + p - 1) / p < q + 1 := by
    rw [Nat.div_lt_iff_lt_mul (by omega : 0 < p)]
    have hexp : (q + 1) * p = q * p + p := by ring
    have hcomm : p * q = q * p := Nat.mul_comm p q
    omega
  have h5 : (lo + p - 1) / p * p ≤ q * p := Nat.mul_le_mul_right p (by omega)
  have hcomm : p * q = q * p := Nat.mul_comm p q
  exact Nat.max_le.mpr ⟨by omega, by omega⟩

/-! ### Block sieve pass correctness -/

theorem length_markPrime {B : Type} (R : BoolRep B) (lo p : Nat) (buf : List B) :
    (markPrime R lo p buf).length = buf.length :=
  length_markWith R _ buf

theorem length_markFold {B : Type} (R : BoolRep B) (lo : Nat) (ps : List Nat) (buf : List B) :
    (ps.foldl (fun b p => markPrime R lo p b) buf).length = buf.length := by
  induction ps generalizing buf with
  | nil => rfl
  | cons p ps ih => rw [List.foldl_cons, ih, length_markPrime]

theorem markFold_toBool {B : Type} (R : BoolRep B) (lo : Nat) (ps : List Nat) (buf : List B)
    {i : Nat} (h : i < buf.length) :
    (R.toBool ((ps.foldl (fun b p => markPrime R lo p b) buf).getD i R.ff) = true ↔
      R.toBool (buf.getD i R.ff) = true ∧
        ¬ ∃ p ∈ ps, startMult p lo ≤ lo + i ∧ p ∣ (lo + i)) := by
  induction ps generalizing buf with
  | nil => simp
  | cons p ps ih =>
    rw [List.foldl_cons, ih _ (by rw [length_markPrime]; exact h)]
    unfold markPrime
    rw [getD_markWith R _ _ h]
    by_cases hc : (decide (startMult p lo ≤ lo + i) && decide (p ∣ (lo + i))) = true
    · rw [if_pos hc, R.toBool_ff]
      simp only [Bool.and_eq_true, decide_eq_true_eq] at hc
      simp only [Bool.false_eq_true, false_and, false_iff, not_and, not_not]
      intro htrue
      exact ⟨p, List.mem_cons_self p ps, hc.1, hc.2⟩
    · rw [if_neg hc]
      simp only [Bool.and_eq_true, decide_eq_true_eq, not_and] at hc
      constructor
      · rintro ⟨htrue, hno⟩
        refine ⟨htrue, ?_⟩
        rintro ⟨q, hq, hqs, hqd⟩
        rcases List.mem_cons.mp hq with rfl | hq'
        · exact hc hqs hqd
        · exact hno ⟨q, hq', hqs, hqd⟩
      · rintro ⟨htrue, hno⟩
        refine ⟨htrue, ?_⟩
        rintro ⟨q, hq, hqs, hqd⟩
        exact hno ⟨q, List.mem_cons_of_mem p hq, hqs, hqd⟩

theorem length_range_sieve_buf {B : Type} (R : BoolRep B) (blk : Block B) (base : List Nat) :
    (range_sieve R blk base).buf.length = blk.buf.length :=
  length_markFold R blk.lo _ blk.buf

theorem range_sieve_toBool {B : Type} (R : BoolRep B) (lo hi : Nat) (base : List Nat)
    {i : Nat} (h : i < hi - lo) :
    (R.toBool ((range_sieve R ⟨lo, hi, List.replicate (hi - lo) R.tt⟩ base).buf.getD i R.ff)
        = true ↔
      ¬ ∃ p ∈ base, p * p ≤ hi ∧ startMult p lo ≤ lo + i ∧ p ∣ (lo + i)) := by
  unfold range_sieve
  rw [markFold_toBool R lo _ _ (by rw [List.length_replicate]; exact h)]
  rw [getD_replicate _ _ h, R.toBool_tt]
  simp only [true_and, true_iff]
  constructor
  · rintro hno ⟨p, hp, hsq, hs, hd⟩
    exact hno ⟨p, List.mem_filter.mpr ⟨hp, by simpa using hsq⟩, hs, hd⟩
  · rintro hno ⟨p, hp, hs, hd⟩
    obtain ⟨hpmem, hpsq⟩ := List.mem_filter.mp hp
    exact hno ⟨p, hpmem, by simpa using hpsq, hs, hd⟩

theorem block_unmarked_iff {B : Type} (R : BoolRep B) {n hi lo x : Nat}
    (hx1 : csqrt n < x) (hx2 : x < hi) (hhi : hi ≤ n + 1) (hlo : lo ≤ x) :
    ((¬ ∃ p ∈ base_primes R n, p * p ≤ hi ∧ startMult p lo ≤ x ∧ p ∣ x) ↔
      isPrimeB x = true) := by
  have hxn : x ≤ n := by omega
  have hn1 : 1 ≤ n := by omega
  have hx2' : 2 ≤ x := by
    have := csqrt_pos hn1
    omega
  rw [isPrimeB_iff, prime_iff_no_small_factor hx2']
  apply not_congr
  constructor
  · rintro ⟨p, hpmem, hphi, hps, hpd⟩
    rw [base_primes_eq, mem_primesUpTo] at hpmem
    refine ⟨p, hpmem.1, ?_, hpd⟩
    calc p * p ≤ startMult p lo := sq_le_startMult p lo
      _ ≤ x := hps
  · rintro ⟨p, hpp, hpsq, hpd⟩
    have hple : p ≤ csqrt n := le_csqrt_of_sq_le (le_trans hpsq hxn)
    refine ⟨p, ?_, by omega, startMult_le (by have := hpp.two_le; omega) hpd hlo hpsq, hpd⟩
    rw [base_primes_eq, mem_primesUpTo]
    exact ⟨hpp, hple⟩

theorem pipeline_eq {B : Type} (R : BoolRep B) (n bs i : Nat) :
    pipeline R (base_primes R n) bs (csqrt n) n i =
      (List.range' (csqrt n + 1 + i * bs)
        (min (csqrt n + 1 + i * bs + bs) (n + 1) - (csqrt n + 1 + i * bs))).filter isPrimeB := by
  have hlo : csqrt n + 1 ≤ csqrt n + 1 + i * bs := by omega
  unfold pipeline gen_range
  simp only
  unfold sieve_to_primes_part
  rw [List.range'_eq_map_range, List.filter_map]
  rw [length_range_sieve_buf, List.length_replicate]
  apply congrArg (List.map _)
  apply List.filter_congr
  intro j hj
  rw [List.mem_range] at hj
  apply Bool.coe_iff_coe.mp
  rw [range_sieve_toBool R _ _ _ hj]
  have hjx : csqrt n + 1 + i * bs + j < min (csqrt n + 1 + i * bs + bs) (n + 1) := by omega
  exact block_unmarked_iff R (by omega) hjx (by omega) (by omega)

/-! ### Allocator, scheduler and result table -/

theorem allocDelivered_eq (k c : Nat) : allocDelivered k c = List.range' c k := by
  induction k generalizing c with
  | zero => rfl
  | succ k ih =>
    rw [List.range'_succ]
    show c :: allocDelivered k (c + 1) = c :: List.range' (c + 1) k
    rw [ih]

theorem getD_set {α : Type} (l : List α) (m j : Nat) (a d : α) :
    (l.set m a).getD j d = if m = j ∧ j < l.length then a else l.getD j d := by
  by_cases hj : j < l.length
  · rw [List.getD_eq_getElem _ _ (by rw [List.length_set]; exact hj),
      List.getD_eq_getElem _ _ hj, List.getElem_set]
    by_cases hm : m = j
    · rw [if_pos hm, if_pos ⟨hm, hj⟩]
    · rw [if_neg hm, if_neg (fun hc => hm hc.1)]
  · rw [List.getD_eq_default _ _ (by rw [List.length_set]; omega),
      List.getD_eq_default _ _ (by omega), if_neg (fun hc => hj hc.2)]

theorem depositAll_snd (f : Nat → List Nat) (T : Nat) (st : SieveState) :
    (depositAll f T st).2 = st.2 ++ (List.range T).map (· + 1) := by
  induction T with
  | zero => simp [depositAll]
  | succ T ih =>
    unfold depositAll
    rw [List.range_succ, List.foldl_append]
    show (output_body (f T) (T + 1) (depositAll f T st)).2 = _
    rw [output_body]
    show (depositAll f T st).2 ++ [T + 1] = st.2 ++ List.map (· + 1) (List.range T ++ [T])
    rw [List.map_append, ih, List.append_assoc]
    rfl

theorem depositAll_fst_length (f : Nat → List Nat) (T : Nat) (st : SieveState) :
    (depositAll f T st).1.length = st.1.length := by
  induction T with
  | zero => rfl
  | succ T ih =>
    unfold depositAll
    rw [List.range_succ, List.foldl_append]
    show (output_body (f T) (T + 1) (depositAll f T st)).1.length = _
    rw [output_body]
    show ((depositAll f T st).1.set (T + 1) _).length = _
    rw [List.length_set, ih]

theorem depositAll_fst_getD (f : Nat → List Nat) (T : Nat) (st : SieveState)
    (hT : T < st.1.length) (j : Nat) :
    (depositAll f T st).1.getD j none =
      if 1 ≤ j ∧ j ≤ T then some (f (j - 1)) else st.1.getD j none := by
  induction T with
  | zero =>
    rw [if_neg (by omega)]
    rfl
  | succ T ih =>
    unfold depositAll
    rw [List.range_succ, List.foldl_append]
    show (output_body (f T) (T + 1) (depositAll f T st)).1.getD j none = _
    rw [output_body]
    show ((depositAll f T st).1.set (T + 1) (some (f T))).getD j none = _
    rw [getD_set, depositAll_fst_length]
    by_cases hj : T + 1 = j
    · rw [if_pos ⟨hj, by omega⟩, if_pos (by omega)]
      rw [← hj]
      simp
    · rw [if_neg (fun hc => hj hc.1), ih (by omega)]
      by_cases hj2 : 1 ≤ j ∧ j ≤ T
      · rw [if_pos hj2, if_pos (by omega)]
      · rw [if_neg hj2, if_neg (by omega)]

theorem runPipelines_eq_depositAll {B : Type} (R : BoolRep B) (base : List Nat)
    (bs s n T : Nat) (st : SieveState) :
    runPipelines R base bs s n T st = depositAll (pipeline R base bs s n) T st := by
  unfold runPipelines depositAll
  rw [allocDelivered_eq, ← List.range_eq_range']

theorem sieve_table_eq {B : Type} (R : BoolRep B) (n bs : Nat) (h : bs ≠ 0) :
    sieve_unifex_block R n bs = Except.ok
      (some (base_primes R n) :: (List.range (n / bs + 1)).map
        (fun i => some (pipeline R (base_primes R n) bs (csqrt n) n i))) := by
  unfold sieve_unifex_block sieveRun initTable
  rw [if_neg h, runPipelines_eq_depositAll]
  congr 1
  have hlen0 : ((List.replicate (n / bs + 2) (none : Option (List Nat))).set 0
      (some (base_primes R n))).length = n / bs + 2 := by
    rw [List.length_set, List.length_replicate]
  apply List.ext_getElem
  · rw [depositAll_fst_length]
    simp only [hlen0, List.length_cons, List.length_map, List.length_range]
  · intro j h1 h2
    rw [← List.getD_eq_getElem _ none h1, ← List.getD_eq_getElem _ none h2]
    rw [depositAll_fst_getD _ _ _ (by rw [hlen0]; omega)]
    have h2' : j < n / bs + 2 := by
      simpa [List.length_map, List.length_range] using h2
    match j with
    | 0 =>
      rw [if_neg (by omega), getD_set, if_pos ⟨rfl, by rw [List.length_replicate]; omega⟩]
      rfl
    | k + 1 =>
      rw [if_pos (by omega)]
      have hk : k < n / bs + 1 := by omega
      have hkm : k < ((List.range (n / bs + 1)).map
          (fun i => some (pipeline R (base_primes R n) bs (csqrt n) n i))).length := by
        simpa [List.length_map, List.length_range] using hk
      show some (pipeline R (base_primes R n) bs (csqrt n) n (k + 1 - 1)) =
        ((List.range (n / bs + 1)).map
          (fun i => some (pipeline R (base_primes R n) bs (csqrt n) n i))).getD k none
      rw [List.getD_eq_getElem _ none hkm, List.getElem_map, List.getElem_range]
      rfl

/-! ### Assembling the blocks into the full prime list -/

theorem blocks_intervals_flatten (s bs m : Nat) :
    ∀ T, ((List.range T).map (fun i => List.range' (s + 1 + i * bs)
        (min (s + 1 + i * bs + bs) (s + 1 + m) - (s + 1 + i * bs)))).flatten =
      List.range' (s + 1) (min (T * bs) m) := by
  intro T
  induction T with
  | zero => simp
  | succ T ih =>
    rw [List.range_succ, List.map_append, List.flatten_append, ih]
    simp only [List.map_singleton, List.flatten_cons, List.flatten_nil, List.append_nil]
    have hexp : (T + 1) * bs = T * bs + bs := by ring
    rcases Nat.le_total m (T * bs) with hc | hc
    · have h1 : min (T * bs) m = m := by omega
      have h2 : min (s + 1 + T * bs + bs) (s + 1 + m) - (s + 1 + T * bs) = 0 := by omega
      have h3 : min ((T + 1) * bs) m = m := by omega
      rw [h1, h2, h3]
      simp
    · have h2 : min (s + 1 + T * bs + bs) (s + 1 + m) - (s + 1 + T * bs) =
        min bs (m - T * bs) := by omega
      have h1 : min (T * bs) m = T * bs := by omega
      rw [h1, h2]
      rw [range'_glue (s + 1) (T * bs) (min bs (m - T * bs))]
      have h4 : T * bs + min bs (m - T * bs) = min ((T + 1) * bs) m := by omega
      rw [h4]

theorem primesUpTo_eq_filter_range' (k : Nat) :
    primesUpTo k = (List.range' 0 (k + 1)).filter isPrimeB := by
  rw [primesUpTo, List.range_eq_range']

theorem run_sieve_eq (n bs : Nat) (h : 1 ≤ bs) :
    run_sieve n bs = Except.ok (primesUpTo n) := by
  unfold run_sieve
  rw [sieve_table_eq boolRep n bs (by omega)]
  show Except.ok (tableConcat _) = _
  congr 1
  unfold tableConcat
  rw [List.map_cons, List.map_map]
  have hmap : ((fun o : Option (List Nat) => o.getD []) ∘
      fun i => some (pipeline boolRep (base_primes boolRep n) bs (csqrt n) n i)) =
      fun i => pipeline boolRep (base_primes boolRep n) bs (csqrt n) n i := rfl
  rw [hmap, List.flatten_cons]
  have hsn : csqrt n ≤ n := csqrt_le_self n
  have hpipe : (List.range (n / bs + 1)).map
      (fun i => pipeline boolRep (base_primes boolRep n) bs (csqrt n) n i) =
      (List.range (n / bs + 1)).map (fun i => ((List.range' (csqrt n + 1 + i * bs)
        (min (csqrt n + 1 + i * bs + bs) (csqrt n + 1 + (n - csqrt n)) -
          (csqrt n + 1 + i * bs))).filter isPrimeB)) := by
    apply List.map_congr_left
    intro i hmem
    rw [pipeline_eq]
    have harith : csqrt n + 1 + (n - csqrt n) = n + 1 := by omega
    rw [harith]
  rw [hpipe]
  have hflat : ((List.range (n / bs + 1)).map (fun i => ((List.range' (csqrt n + 1 + i * bs)
      (min (csqrt n + 1 + i * bs + bs) (csqrt n + 1 + (n - csqrt n)) -
        (csqrt n + 1 + i * bs))).filter isPrimeB))).flatten =
      (List.range' (csqrt n + 1) (min ((n / bs + 1) * bs) (n - csqrt n))).filter isPrimeB := by
    have hcomp : (fun i => ((List.range' (csqrt n + 1 + i * bs)
        (min (csqrt n + 1 + i * bs + bs) (csqrt n + 1 + (n - csqrt n)) -
          (csqrt n + 1 + i * bs))).filter isPrimeB)) =
        (List.filter isPrimeB ∘ fun i => List.range' (csqrt n + 1 + i * bs)
          (min (csqrt n + 1 + i * bs + bs) (csqrt n + 1 + (n - csqrt n)) -
            (csqrt n + 1 + i * bs))) := rfl
    rw [hcomp, ← List.map_map (List.filter isPrimeB), ← List.filter_flatten,
      blocks_intervals_flatten (csqrt n) bs (n - csqrt n) (n / bs + 1)]
  rw [hflat]
  have hcover : min ((n / bs + 1) * bs) (n - csqrt n) = n - csqrt n := by
    have hdm : bs * (n / bs) + n % bs = n := Nat.div_add_mod n bs
    have hmod : n % bs < bs := Nat.mod_lt _ (by omega)
    have hexp : (n / bs + 1) * bs = n / bs * bs + bs := by ring
    have hcomm : bs * (n / bs) = n / bs * bs := Nat.mul_comm _ _
    omega
  rw [hcover, base_primes_eq, primesUpTo_eq_filter_range', primesUpTo_eq_filter_range']
  simp only [Option.getD_some]
  have hglue := range'_glue 0 (csqrt n + 1) (n - csqrt n)
  rw [Nat.zero_add] at hglue
  rw [← List.filter_append, hglue]
  have harith2 : csqrt n + 1 + (n - csqrt n) = n + 1 := by omega
  rw [harith2]

/-! ### Block-range partition helpers -/

theorem gen_range_lo {B : Type} (R : BoolRep B) (i bs s n : Nat) :
    (gen_range R i bs s n).lo = s + 1 + i * bs := rfl

theorem gen_range_hi {B : Type} (R : BoolRep B) (i bs s n : Nat) :
    (gen_range R i bs s n).hi = min (s + 1 + i * bs + bs) (n + 1) := rfl

theorem blocks_disjoint {B : Type} (R : BoolRep B) {i j bs s n x : Nat} (hij : i < j)
    (hx : x < (gen_range R i bs s n).hi) (hx2 : (gen_range R j bs s n).lo ≤ x) : False := by
  rw [gen_range_hi] at hx
  rw [gen_range_lo] at hx2
  have h1 : (i + 1) * bs ≤ j * bs := Nat.mul_le_mul_right bs (by omega)
  have h2 : (i + 1) * bs = i * bs + bs := by ring
  omega

/-! ### The claims -/

/-- Claim C1: for every bound `N ≥ 0` and every `blockSize ≥ 1`, concatenating
slot 0 of the returned result table (the base prime list) with the per-block
prime results in ascending slot order yields exactly the complete, strictly
ascending, duplicate-free list of all primes `≤ N`; in particular `N = 0` and
`N = 1` yield an empty sequence and `N = 2` yields `[2]`. -/
theorem claim_C1 (n bs : Nat) (h : 1 ≤ bs) :
    run_sieve n bs = Except.ok (primesUpTo n) ∧
    List.Sorted (· < ·) (primesUpTo n) ∧
    (primesUpTo n).Nodup ∧
    (∀ x, x ∈ primesUpTo n ↔ Nat.Prime x ∧ x ≤ n) ∧
    primesUpTo 0 = [] ∧ primesUpTo 1 = [] ∧ primesUpTo 2 = [2] := by
  refine ⟨run_sieve_eq n bs h, primesUpTo_sorted n, (primesUpTo_sorted n).nodup,
    fun x => mem_primesUpTo, by decide, by decide, by decide⟩

/-- Witness for C1 at the concrete input `N = 2`, `blockSize = 1`. -/
theorem claim_C1_witness : run_sieve 2 1 = Except.ok (primesUpTo 2) :=
  (claim_C1 2 1 (by decide)).1

/-- Claim C2: for every bound `≥ 2` the produced prime sequence is the same
for every block size `≥ 1` (worker-pool size does not occur in the functional
model: pipelines are deterministic and their deposits land in disjoint
slots, so the table is schedule-invariant); in particular the single-block
case `blockSize ≥ bound` agrees with every multi-block partition. -/
theorem claim_C2 (n bs1 bs2 : Nat) (_hn : 2 ≤ n) (h1 : 1 ≤ bs1) (h2 : 1 ≤ bs2) :
    run_sieve n bs1 = run_sieve n bs2 := by
  rw [run_sieve_eq n bs1 h1, run_sieve_eq n bs2 h2]

/-- Witness for C2 at the concrete input `bound = 30`, block sizes 7 and 40
(the latter collapses to a single nonempty block). -/
theorem claim_C2_witness : run_sieve 30 7 = run_sieve 30 40 :=
  claim_C2 30 7 40 (by decide) (by decide) (by decide)

/-- Claim C3: for every bound and `blockSize ≥ 1` the map from block index to
its half-open range `[lo, hi)` partitions `(√N, N]`: every integer in that
interval lies in exactly one launched block's range, and consecutive ranges
are contiguous (`hi` of one is `lo` of the next, clipped at `N + 1`). -/
theorem claim_C3 (n bs : Nat) (h : 1 ≤ bs) :
    (∀ x, (csqrt n < x ∧ x ≤ n) ↔ ∃! i, i < n / bs + 1 ∧
      (gen_range boolRep i bs (csqrt n) n).lo ≤ x ∧
        x < (gen_range boolRep i bs (csqrt n) n).hi) ∧
    (∀ i, (gen_range boolRep i bs (csqrt n) n).hi =
      min ((gen_range boolRep (i + 1) bs (csqrt n) n).lo) (n + 1)) := by
  constructor
  · intro x
    constructor
    · rintro ⟨hx1, hx2⟩
      have hdm : bs * ((x - csqrt n - 1) / bs) + (x - csqrt n - 1) % bs =
          x - csqrt n - 1 := Nat.div_add_mod _ _
      have hmod : (x - csqrt n - 1) % bs < bs := Nat.mod_lt _ (by omega)
      have hcomm : bs * ((x - csqrt n - 1) / bs) = (x - csqrt n - 1) / bs * bs :=
        Nat.mul_comm _ _
      have hqle : (x - csqrt n - 1) / bs ≤ n / bs := Nat.div_le_div_right (by omega)
      refine ⟨(x - csqrt n - 1) / bs, ⟨by omega, ?_, ?_⟩, ?_⟩
      · rw [gen_range_lo]
        omega
      · rw [gen_range_hi]
        omega
      · rintro j ⟨hj, hjlo, hjhi⟩
        by_contra hne
        rcases Nat.lt_or_ge j ((x - csqrt n - 1) / bs) with hlt | hge
        · exact blocks_disjoint boolRep hlt hjhi (by rw [gen_range_lo]; omega)
        · have hlt2 : (x - csqrt n - 1) / bs < j := by omega
          refine blocks_disjoint boolRep hlt2 ?_ hjlo
          rw [gen_range_hi]
          omega
    · rintro ⟨i, ⟨hi, hlo, hhi⟩, -⟩
      rw [gen_range_lo] at hlo
      rw [gen_range_hi] at hhi
      omega
  · intro i
    rw [gen_range_hi, gen_range_lo]
    have hexp : (i + 1) * bs = i * bs + bs := by ring
    omega

/-- Witness for C3 at the concrete input `n = 10`, `bs = 3`: contiguity of the
first two block ranges. -/
theorem claim_C3_witness : (gen_range boolRep 0 3 (csqrt 10) 10).hi =
    min ((gen_range boolRep 1 3 (csqrt 10) 10).lo) (10 + 1) :=
  (claim_C3 10 3 (by decide)).2 0

/-- Claim C4 (the code diverges from it): at `blockSize = 0` the program does
not reject the configuration with an InvalidConfiguration error: the
unguarded `n / block_size` at table allocation is a division by zero
(undefined behaviour in the C++, modelled as the `divisionByZero` outcome),
and no execution path ever produces `invalidConfiguration`. -/
theorem claim_C4 :
    sieve_unifex_block boolRep 10 0 = Except.error SieveError.divisionByZero ∧
    ∀ (n bs : Nat),
      sieve_unifex_block boolRep n bs ≠ Except.error SieveError.invalidConfiguration := by
  refine ⟨rfl, fun n bs => ?_⟩
  unfold sieve_unifex_block
  by_cases hbs : bs = 0
  · rw [if_pos hbs]
    simp
  · rw [if_neg hbs]
    simp

/-- Claim C5: the base sieve step produces the strictly ascending list of
exactly the primes `p` with `2 ≤ p ≤ ⌈√N⌉` (`csqrt` is the exact ceiling of
the real square root: it is the least `k` with `N ≤ k²`), and a base-sieve
bound of 0 yields the empty list. -/
theorem claim_C5 (n : Nat) :
    List.Sorted (· < ·) (base_primes boolRep n) ∧
    (∀ p, p ∈ base_primes boolRep n ↔ Nat.Prime p ∧ 2 ≤ p ∧ p ≤ csqrt n) ∧
    n ≤ csqrt n * csqrt n ∧
    (∀ k, n ≤ k * k → csqrt n ≤ k) ∧
    sieve_to_primes boolRep (sieve_seq boolRep 0) = [] := by
  refine ⟨?_, ?_, le_csqrt_sq n, fun k hk => csqrt_le_of_le_sq hk, ?_⟩
  · rw [base_primes_eq]
    exact primesUpTo_sorted _
  · intro p
    rw [base_primes_eq, mem_primesUpTo]
    constructor
    · rintro ⟨hp, hle⟩
      exact ⟨hp, hp.two_le, hle⟩
    · rintro ⟨hp, -, hle⟩
      exact ⟨hp, hle⟩
  · rw [sieve_to_primes_sieve_seq]
    decide

/-- Claim C6: within one block pipeline over `[lo, hi)` the sieve pass marks
as composite exactly the positions whose integer `lo + i` is a multiple of
some base prime `p` with `p ≤ √hi` (for integers, `p * p ≤ hi`), the marking
for each `p` starting at the smallest multiple of `p` that is `≥ lo` and
`≥ p * p` (`startMult`), and every position left unmarked is extracted in
ascending order as the prime `lo + i`. -/
theorem claim_C6 (lo hi : Nat) (base : List Nat) (hbase : ∀ p ∈ base, 1 ≤ p) :
    (∀ i, i < hi - lo →
      ((range_sieve boolRep ⟨lo, hi, List.replicate (hi - lo) true⟩ base).buf.getD i false
          = false ↔
        ∃ p ∈ base, p * p ≤ hi ∧ startMult p lo ≤ lo + i ∧ p ∣ (lo + i))) ∧
    (∀ p ∈ base, p ∣ startMult p lo ∧ lo ≤ startMult p lo ∧ p * p ≤ startMult p lo ∧
      ∀ y, p ∣ y → lo ≤ y → p * p ≤ y → startMult p lo ≤ y) ∧
    sieve_to_primes_part boolRep
        (range_sieve boolRep ⟨lo, hi, List.replicate (hi - lo) true⟩ base) =
      (List.range' lo (hi - lo)).filter
        (fun x => decide (¬ ∃ p ∈ base, p * p ≤ hi ∧ startMult p lo ≤ x ∧ p ∣ x)) := by
  refine ⟨?_, ?_, ?_⟩
  · intro i hilt
    have hch : ((range_sieve boolRep ⟨lo, hi, List.replicate (hi - lo) true⟩ base).buf.getD
        i false = true) ↔
        ¬ ∃ p ∈ base, p * p ≤ hi ∧ startMult p lo ≤ lo + i ∧ p ∣ (lo + i) :=
      range_sieve_toBool boolRep lo hi base hilt
    rw [← Bool.not_eq_true, hch, not_not]
  · intro p hp
    exact ⟨dvd_startMult p lo, le_startMult (hbase p hp) lo, sq_le_startMult p lo,
      fun y hd hl hs => startMult_le (hbase p hp) hd hl hs⟩
  · unfold sieve_to_primes_part
    rw [length_range_sieve_buf]
    simp only [List.length_replicate]
    rw [List.range'_eq_map_range, List.filter_map]
    rw [show (fun i =>
        (range_sieve boolRep ⟨lo, hi, List.replicate (hi - lo) true⟩ base).lo + i) =
      (fun i => lo + i) from rfl]
    apply congrArg (List.map fun i => lo + i)
    apply List.filter_congr
    intro j hj
    rw [List.mem_range] at hj
    apply Bool.coe_iff_coe.mp
    have hch : ((range_sieve boolRep ⟨lo, hi, List.replicate (hi - lo) true⟩ base).buf.getD
        j false = true) ↔
        ¬ ∃ p ∈ base, p * p ≤ hi ∧ startMult p lo ≤ lo + j ∧ p ∣ (lo + j) :=
      range_sieve_toBool boolRep lo hi base hj
    constructor
    · intro hb
      show decide (¬ ∃ p ∈ base, p * p ≤ hi ∧ startMult p lo ≤ lo + j ∧ p ∣ (lo + j)) = true
      rw [decide_eq_true_eq]
      exact hch.mp hb
    · intro hb
      have hb' : decide
          (¬ ∃ p ∈ base, p * p ≤ hi ∧ startMult p lo ≤ lo + j ∧ p ∣ (lo + j)) = true := hb
      rw [decide_eq_true_eq] at hb'
      exact hch.mpr hb'

/-- Witness for C6 at the concrete input `lo = 10`, `hi = 20`,
`base = [2, 3]`: the extraction equality, evaluated. -/
theorem claim_C6_witness :
    sieve_to_primes_part boolRep
        (range_sieve boolRep ⟨10, 20, List.replicate (20 - 10) true⟩ [2, 3]) =
      (List.range' 10 (20 - 10)).filter
        (fun x => decide (¬ ∃ p ∈ [2, 3], p * p ≤ 20 ∧ startMult p 10 ≤ x ∧ p ∣ x)) :=
  (claim_C6 10 20 [2, 3] (by decide)).2.2

/-- Claim C7: the block allocator's counter delivers a monotonically
increasing sequence starting at 0 — after `k` calls the delivered indices
are exactly `0 … k-1` in ascending order, each delivered exactly once, none
lost, none duplicated — and one call returns the counter and increments it. -/
theorem claim_C7 (k : Nat) :
    allocDelivered k 0 = List.range k ∧
    List.Sorted (· < ·) (allocDelivered k 0) ∧
    (∀ j, j < k → List.count j (allocDelivered k 0) = 1) ∧
    (∀ j, k ≤ j → List.count j (allocDelivered k 0) = 0) ∧
    (∀ c, alloc_next c = (c, c + 1)) := by
  have he : allocDelivered k 0 = List.range k := by
    rw [allocDelivered_eq, List.range_eq_range']
  refine ⟨he, ?_, ?_, ?_, fun c => rfl⟩
  · rw [he]
    exact List.pairwise_lt_range k
  · intro j hj
    rw [he]
    exact List.count_eq_one_of_mem (List.nodup_range k) (List.mem_range.mpr hj)
  · intro j hj
    rw [he]
    refine List.count_eq_zero.mpr ?_
    rw [List.mem_range]
    omega

/-- Claim C8: the result table is allocated with exactly `N / blockSize + 2`
slots before any pipeline starts, slot 0 holds the base prime list already in
that pre-launch table, and during the run the written slots are
`1 … N/blockSize + 1`, pairwise distinct (each non-zero slot written at most
once) and never slot 0. -/
theorem claim_C8 (n bs : Nat) (_h : 1 ≤ bs) :
    (initTable boolRep n bs).length = n / bs + 2 ∧
    (initTable boolRep n bs).getD 0 none = some (base_primes boolRep n) ∧
    (sieveRun boolRep n bs).1.length = n / bs + 2 ∧
    (sieveRun boolRep n bs).2 = (List.range (n / bs + 1)).map (· + 1) ∧
    (sieveRun boolRep n bs).2.Nodup ∧
    (0 : Nat) ∉ (sieveRun boolRep n bs).2 := by
  have hlen : (initTable boolRep n bs).length = n / bs + 2 := by
    unfold initTable
    rw [List.length_set, List.length_replicate]
  have hlog : (sieveRun boolRep n bs).2 = (List.range (n / bs + 1)).map (· + 1) := by
    unfold sieveRun
    rw [runPipelines_eq_depositAll, depositAll_snd]
    rfl
  refine ⟨hlen, ?_, ?_, hlog, ?_, ?_⟩
  · unfold initTable
    rw [getD_set, if_pos ⟨rfl, by rw [List.length_replicate]; exact Nat.succ_pos _⟩]
  · unfold sieveRun
    rw [runPipelines_eq_depositAll, depositAll_fst_length]
    exact hlen
  · rw [hlog]
    exact (List.nodup_range _).map (fun a b hab => by omega)
  · rw [hlog]
    intro hmem
    rw [List.mem_map] at hmem
    obtain ⟨a, -, ha⟩ := hmem
    omega

/-- Witness for C8 at the concrete input `n = 10`, `bs = 3`. -/
theorem claim_C8_witness : (initTable boolRep 10 3).length = 10 / 3 + 2 :=
  (claim_C8 10 3 (by decide)).1

/-- Claim C9: the scheduler launches exactly one pipeline instance per
planned block (`N / blockSize + 1` delivered indices, `N / blockSize + 1`
deposits) and the table returned by `sieve_unifex_block` is the joined state:
every launched pipeline's result is already deposited in it, every slot is
populated. -/
theorem claim_C9 (n bs : Nat) (h : 1 ≤ bs) :
    (allocDelivered (n / bs + 1) 0).length = n / bs + 1 ∧
    (sieveRun boolRep n bs).2.length = n / bs + 1 ∧
    sieve_unifex_block boolRep n bs = Except.ok (sieveRun boolRep n bs).1 ∧
    (∀ i, i < n / bs + 1 → (sieveRun boolRep n bs).1.getD (i + 1) none =
      some (pipeline boolRep (base_primes boolRep n) bs (csqrt n) n i)) ∧
    (∀ j, j < (sieveRun boolRep n bs).1.length →
      (sieveRun boolRep n bs).1.getD j none ≠ none) := by
  have hT : n / bs + 1 < (initTable boolRep n bs).length := by
    unfold initTable
    rw [List.length_set, List.length_replicate]
    omega
  have hgetD : ∀ j, (sieveRun boolRep n bs).1.getD j none =
      if 1 ≤ j ∧ j ≤ n / bs + 1
      then some (pipeline boolRep (base_primes boolRep n) bs (csqrt n) n (j - 1))
      else (initTable boolRep n bs).getD j none := by
    intro j
    unfold sieveRun
    rw [runPipelines_eq_depositAll, depositAll_fst_getD _ _ _ hT]
  refine ⟨?_, ?_, ?_, ?_, ?_⟩
  · rw [allocDelivered_eq, List.length_range']
  · unfold sieveRun
    rw [runPipelines_eq_depositAll, depositAll_snd]
    simp
  · unfold sieve_unifex_block
    rw [if_neg (by omega)]
  · intro i hi
    rw [hgetD, if_pos (by omega)]
    simp
  · intro j hj
    have hlen : (sieveRun boolRep n bs).1.length = n / bs + 2 := by
      unfold sieveRun
      rw [runPipelines_eq_depositAll, depositAll_fst_length]
      unfold initTable
      rw [List.length_set, List.length_replicate]
    rw [hlen] at hj
    rw [hgetD]
    by_cases hj2 : 1 ≤ j ∧ j ≤ n / bs + 1
    · rw [if_pos hj2]
      simp
    · rw [if_neg hj2]
      have hj0 : j = 0 := by omega
      subst hj0
      unfold initTable
      rw [getD_set, if_pos ⟨rfl, by rw [List.length_replicate]; omega⟩]
      simp

/-- Witness for C9 at the concrete input `n = 10`, `bs = 3`. -/
theorem claim_C9_witness : (allocDelivered (10 / 3 + 1) 0).length = 10 / 3 + 1 :=
  (claim_C9 10 3 (by decide)).1

/-- Claim C10: the two template instantiations of the sieve — `bool` and
`char` as the candidate-buffer element type, exactly as invoked by `main` at
lines 133-134 — return identical result tables for every `n` and
`block_size`: the bitmap element type never affects the computed primes. -/
theorem claim_C10 (n bs : Nat) :
    sieve_unifex_block boolRep n bs = sieve_unifex_block charRep n bs := by
  by_cases h : bs = 0
  · unfold sieve_unifex_block
    rw [if_pos h, if_pos h]
  · rw [sieve_table_eq boolRep n bs h, sieve_table_eq charRep n bs h]
    have hhead : (some (base_primes boolRep n) : Option (List Nat)) =
        some (base_primes charRep n) := by
      rw [base_primes_eq, base_primes_eq]
    have htail : (List.range (n / bs + 1)).map
        (fun i => some (pipeline boolRep (base_primes boolRep n) bs (csqrt n) n i)) =
      (List.range (n / bs + 1)).map
        (fun i => some (pipeline charRep (base_primes charRep n) bs (csqrt n) n i)) := by
      apply List.map_congr_left
      intro i hmem
      apply congrArg some
      rw [pipeline_eq boolRep, pipeline_eq charRep]
    rw [hhead, htail]

end SieveExec
